import Mathlib

/-!
Verification of the flat-editor / Azure-function / Markdown-link extension
fragments: a shallow embedding of `FlatConfigEditor`, the `extension.ts`
activation helpers, `createAzureFunction`, and the Markdown document-link
resolver, together with a model of the YAML serializer the editor writes
through.

Text is modelled line-by-line: a document is a `List (List Char)` (one
`List Char` per line).  Host operations (opening documents, globbing,
fetching, user prompts) are oracles passed as function arguments, and each
embedded function returns the trace of host-API effects it performs.
-/

/-- Characters of a string literal, used to build `List Char` values. -/
def chars (s : String) : List Char := s.data

/-- One line of a text document. -/
abbrev Line := List Char

/-- A text document, as its list of lines. -/
abbrev FileLines := List Line

/-!
## YAML value model

`Modelled from the spec:` the repository serializes and parses its `flat.yml`
configuration through the external `yaml` package's `stringify`/`parse` pair
(not part of this repository's sources).  `YamlVal` is the value domain
(null, booleans, strings, sequences, maps) and `stringify`/`parseYaml` below
model the library pair on that domain, producing block-style YAML lines.
-/

mutual
inductive YamlVal : Type where
  | nullV : YamlVal
  | boolV : Bool → YamlVal
  | strV : List Char → YamlVal
  | seqV : YamlSeq → YamlVal
  | mapV : YamlMap → YamlVal
deriving DecidableEq

inductive YamlSeq : Type where
  | nil : YamlSeq
  | cons : YamlVal → YamlSeq → YamlSeq
deriving DecidableEq

inductive YamlMap : Type where
  | nil : YamlMap
  | cons : List Char → YamlVal → YamlMap → YamlMap
deriving DecidableEq
end

/-- Build a `YamlSeq` from a list. -/
def YamlSeq.ofList : List YamlVal → YamlSeq
  | [] => .nil
  | v :: tl => .cons v (YamlSeq.ofList tl)

/-- Build a `YamlMap` from a list of key/value pairs. -/
def YamlMap.ofList : List (List Char × YamlVal) → YamlMap
  | [] => .nil
  | (k, v) :: tl => .cons k v (YamlMap.ofList tl)

/-- Look a key up in a `YamlMap` (first match). -/
def YamlMap.find : YamlMap → List Char → Option YamlVal
  | .nil, _ => none
  | .cons k v tl, key => if k = key then some v else YamlMap.find tl key

/-- Characters allowed in a plain (unquoted) YAML scalar of the model. -/
def safeChar (c : Char) : Bool :=
  c.isAlphanum || c = ' ' || c = '.' || c = '/' || c = '*' || c = '@' ||
    c = '_' || c = '-'

/-- Characters of number-like scalars, which are quoted to stay strings. -/
def numericish (c : Char) : Bool := c.isDigit || c = '.'

/-- Scalar spellings reserved for non-string values. -/
def reservedWord (s : List Char) : Bool :=
  s = chars "null" || s = chars "true" || s = chars "false" ||
    s = chars "[]" || s = chars "\x7b\x7d"

/-- Whether a string must be double-quoted to survive the round trip. -/
def needsQuote (s : List Char) : Bool :=
  match s with
  | [] => true
  | c :: _ =>
    reservedWord s || !s.all safeChar || c = '-' || c = ' ' || c = '*' ||
      (c.isDigit && s.all numericish) || s.getLast? = some ' '

/-- Escape one character for a double-quoted scalar. -/
def escapeChar (c : Char) : List Char :=
  if c = '\\' then ['\\', '\\']
  else if c = '"' then ['\\', '"']
  else if c = '\n' then ['\\', 'n']
  else [c]

/-- Escape a string for a double-quoted scalar. -/
def escapeStr (s : List Char) : List Char := s.flatMap escapeChar

/-- Render a string scalar: plain when safe, double-quoted otherwise. -/
def renderStr (s : List Char) : List Char :=
  if needsQuote s then '"' :: (escapeStr s ++ ['"']) else s

/-- Inline rendering of scalar-like values (`none` for block collections). -/
def scalarStr : YamlVal → Option (List Char)
  | .nullV => some (chars "null")
  | .boolV true => some (chars "true")
  | .boolV false => some (chars "false")
  | .strV s => some (renderStr s)
  | .seqV .nil => some (chars "[]")
  | .mapV .nil => some (chars "\x7b\x7d")
  | _ => none

/-- An indentation prefix of `n` spaces. -/
def indentChars (n : Nat) : List Char := List.replicate n ' '

mutual
/-- Block-style YAML lines of a value at a given indentation. -/
def yamlLines : YamlVal → Nat → List Line
  | .nullV, ind => [indentChars ind ++ chars "null"]
  | .boolV true, ind => [indentChars ind ++ chars "true"]
  | .boolV false, ind => [indentChars ind ++ chars "false"]
  | .strV s, ind => [indentChars ind ++ renderStr s]
  | .seqV .nil, ind => [indentChars ind ++ chars "[]"]
  | .seqV (.cons a b), ind => seqLines (.cons a b) ind
  | .mapV .nil, ind => [indentChars ind ++ chars "\x7b\x7d"]
  | .mapV (.cons k x m), ind => mapLines (.cons k x m) ind

/-- Lines of the items of a block sequence. -/
def seqLines : YamlSeq → Nat → List Line
  | .nil, _ => []
  | .cons v tl, ind => seqItemLines v ind ++ seqLines tl ind

/-- Lines of one sequence item: scalars inline after `- `, collections as
a `-` line followed by an indented block. -/
def seqItemLines : YamlVal → Nat → List Line
  | .nullV, ind => [indentChars ind ++ '-' :: ' ' :: chars "null"]
  | .boolV true, ind => [indentChars ind ++ '-' :: ' ' :: chars "true"]
  | .boolV false, ind => [indentChars ind ++ '-' :: ' ' :: chars "false"]
  | .strV s, ind => [indentChars ind ++ '-' :: ' ' :: renderStr s]
  | .seqV .nil, ind => [indentChars ind ++ '-' :: ' ' :: chars "[]"]
  | .seqV (.cons a b), ind =>
    (indentChars ind ++ ['-']) :: seqLines (.cons a b) (ind + 2)
  | .mapV .nil, ind => [indentChars ind ++ '-' :: ' ' :: chars "\x7b\x7d"]
  | .mapV (.cons k x m), ind =>
    (indentChars ind ++ ['-']) :: mapLines (.cons k x m) (ind + 2)

/-- Lines of the entries of a block map. -/
def mapLines : YamlMap → Nat → List Line
  | .nil, _ => []
  | .cons k v tl, ind => mapEntryLines k v ind ++ mapLines tl ind

/-- Lines of one map entry: scalars inline after `key: `, collections as
a `key:` line followed by an indented block. -/
def mapEntryLines : List Char → YamlVal → Nat → List Line
  | k, .nullV, ind =>
    [indentChars ind ++ renderStr k ++ ':' :: ' ' :: chars "null"]
  | k, .boolV true, ind =>
    [indentChars ind ++ renderStr k ++ ':' :: ' ' :: chars "true"]
  | k, .boolV false, ind =>
    [indentChars ind ++ renderStr k ++ ':' :: ' ' :: chars "false"]
  | k, .strV s, ind =>
    [indentChars ind ++ renderStr k ++ ':' :: ' ' :: renderStr s]
  | k, .seqV .nil, ind =>
    [indentChars ind ++ renderStr k ++ ':' :: ' ' :: chars "[]"]
  | k, .seqV (.cons a b), ind =>
    (indentChars ind ++ renderStr k ++ [':']) :: seqLines (.cons a b) (ind + 2)
  | k, .mapV .nil, ind =>
    [indentChars ind ++ renderStr k ++ ':' :: ' ' :: chars "\x7b\x7d"]
  | k, .mapV (.cons k2 x m), ind =>
    (indentChars ind ++ renderStr k ++ [':']) :: mapLines (.cons k2 x m) (ind + 2)
end

/-- Model of the yaml package's `stringify`, as document lines. -/
def stringify (v : YamlVal) : FileLines := yamlLines v 0

/-- Embeds `FlatConfigEditor.serializeWorkflow`: `stringify(data)`. -/
def serializeWorkflow (data : YamlVal) : FileLines := stringify data

/-- Count the leading spaces of a line. -/
def countIndent : List Char → Nat
  | ' ' :: tl => countIndent tl + 1
  | _ => 0

/-- Drop the leading spaces of a line. -/
def dropIndent : List Char → List Char
  | ' ' :: tl => dropIndent tl
  | l => l

mutual
/-- Scan the body of a double-quoted scalar (after the opening quote),
returning the decoded string and the characters after the closing quote. -/
def scanQuoted : List Char → Option (List Char × List Char)
  | [] => none
  | c :: rest =>
    if c = '"' then some ([], rest)
    else if c = '\\' then scanEscaped rest
    else (scanQuoted rest).map (fun p => (c :: p.1, p.2))

/-- Scan the character following a backslash escape. -/
def scanEscaped : List Char → Option (List Char × List Char)
  | [] => none
  | c2 :: rest2 =>
    (scanQuoted rest2).map
      (fun p => ((if c2 = 'n' then '\n' else c2) :: p.1, p.2))
end

/-- Parse an inline scalar. -/
def parseScalar (c : List Char) : Option YamlVal :=
  if c = chars "null" then some .nullV
  else if c = chars "true" then some (.boolV true)
  else if c = chars "false" then some (.boolV false)
  else if c = chars "[]" then some (.seqV .nil)
  else if c = chars "\x7b\x7d" then some (.mapV .nil)
  else
    match c with
    | [] => none
    | ch :: rest =>
      if ch = '"' then
        match scanQuoted rest with
        | some (s, []) => some (.strV s)
        | _ => none
      else some (.strV (ch :: rest))

/-- Split a plain-key map line into key and optional inline value. -/
def plainKeySplit : List Char → Option (List Char × Option (List Char))
  | [] => none
  | ch :: rest =>
    if ch = ':' then
      match rest with
      | [] => some ([], none)
      | ' ' :: v => some ([], some v)
      | _ => none
    else if ch = '"' then none
    else (plainKeySplit rest).map (fun p => (ch :: p.1, p.2))

/-- Split a map line (content after the indent) into key and optional
inline value; `none` when the line is not a map entry. -/
def parseKeyLine (c : List Char) : Option (List Char × Option (List Char)) :=
  match c with
  | [] => none
  | ch :: rest =>
    if ch = '"' then
      match scanQuoted rest with
      | some (k, ':' :: []) => some (k, none)
      | some (k, ':' :: ' ' :: v) => some (k, some v)
      | _ => none
    else plainKeySplit (ch :: rest)

mutual
/-- Parse one node at the given indentation, returning it and the
remaining lines.  `fuel` bounds the recursion depth. -/
def parseNode : Nat → List Line → Nat → Option (YamlVal × List Line)
  | 0, _, _ => none
  | _ + 1, [], _ => none
  | fuel + 1, l :: rest, ind =>
    if countIndent l = ind then
      let c := dropIndent l
      if c = ['-'] ∨ c.take 2 = ['-', ' '] then
        match parseSeqItems fuel (l :: rest) ind with
        | some (items, rem) => some (.seqV items, rem)
        | none => none
      else
        match parseKeyLine c with
        | some _ =>
          match parseMapEntries fuel (l :: rest) ind with
          | some (entries, rem) => some (.mapV entries, rem)
          | none => none
        | none =>
          match parseScalar c with
          | some v => some (v, rest)
          | none => none
    else none

/-- Parse the items of a block sequence at the given indentation. -/
def parseSeqItems : Nat → List Line → Nat → Option (YamlSeq × List Line)
  | 0, _, _ => none
  | _ + 1, [], _ => some (.nil, [])
  | fuel + 1, l :: rest, ind =>
    if countIndent l = ind then
      let c := dropIndent l
      if c = ['-'] then
        match parseNode fuel rest (ind + 2) with
        | some (v, rem) =>
          match parseSeqItems fuel rem ind with
          | some (items, rem2) => some (.cons v items, rem2)
          | none => none
        | none => none
      else if c.take 2 = ['-', ' '] then
        match parseScalar (c.drop 2) with
        | some v =>
          match parseSeqItems fuel rest ind with
          | some (items, rem2) => some (.cons v items, rem2)
          | none => none
        | none => none
      else some (.nil, l :: rest)
    else some (.nil, l :: rest)

/-- Parse the entries of a block map at the given indentation. -/
def parseMapEntries : Nat → List Line → Nat → Option (YamlMap × List Line)
  | 0, _, _ => none
  | _ + 1, [], _ => some (.nil, [])
  | fuel + 1, l :: rest, ind =>
    if countIndent l = ind then
      match parseKeyLine (dropIndent l) with
      | some (k, some vstr) =>
        match parseScalar vstr with
        | some v =>
          match parseMapEntries fuel rest ind with
          | some (entries, rem) => some (.cons k v entries, rem)
          | none => none
        | none => none
      | some (k, none) =>
        match parseNode fuel rest (ind + 2) with
        | some (v, rem) =>
          match parseMapEntries fuel rem ind with
          | some (entries, rem2) => some (.cons k v entries, rem2)
          | none => none
        | none => none
      | none => some (.nil, l :: rest)
    else some (.nil, l :: rest)
end

/-- Model of the yaml package's `parse` on whole documents: parse the lines
as one node at indentation 0, requiring all lines to be consumed. -/
def parseYaml (lines : FileLines) : Option YamlVal :=
  match parseNode (3 * lines.length + 2) lines 0 with
  | some (v, []) => some v
  | _ => none

/-!
## File system and host-command models

The workspace file system is an association list from paths to documents.
The extension-host commands a function executes are returned as a trace.
-/

/-- A workspace file system: paths mapped to document lines. -/
abbrev FS := List (String × FileLines)

/-- Look a path up in the file system. -/
def fsLookup (fs : FS) (path : String) : Option FileLines :=
  match fs with
  | [] => none
  | (p, c) :: tl => if p = path then some c else fsLookup tl path

/-- Write a file (overwriting an existing entry). -/
def fsWrite (fs : FS) (path : String) (content : FileLines) : FS :=
  match fs with
  | [] => [(path, content)]
  | (p, c) :: tl =>
    if p = path then (p, content) :: tl else (p, c) :: fsWrite tl path content

/-- Path of the flat configuration file under a workspace root. -/
def flatYmlPath (root : String) : String := root ++ "/.github/workflows/flat.yml"

/-- A `vscode.openWith` command executed by `showEditor`. -/
structure OpenWithCmd where
  path : String
  viewType : String
  beside : Bool
deriving DecidableEq

/-!
## `extension.ts`: `initializeFlatYml` and `showEditor`
-/

/-- Embeds `showEditor` of `extension.ts`: opens `flat.yml` with the
`flat.config` viewer (preview) or the default editor; no-op without a
workspace folder. -/
def showEditorExt (workspace : Option String) (isPreview onSide : Bool) :
    List OpenWithCmd :=
  match workspace with
  | none => []
  | some root =>
    [⟨flatYmlPath root, if isPreview then "flat.config" else "default", onSide⟩]

/-- Embeds the `flatStub` object of `initializeFlatYml` (lines 45-72 of
`extension.ts`), verbatim. -/
def flatStub : YamlVal :=
  .mapV (YamlMap.ofList
    [(chars "name", .strV (chars "data")),
     (chars "on", .mapV (YamlMap.ofList
       [(chars "schedule",
         .seqV (YamlSeq.ofList
           [.mapV (YamlMap.ofList [(chars "cron", .strV (chars "0 0 * * *"))])])),
        (chars "workflow_dispatch", .mapV .nil),
        (chars "push", .mapV (YamlMap.ofList
          [(chars "paths",
            .seqV (YamlSeq.ofList [.strV (chars ".github/workflows/flat.yml")]))]))])),
     (chars "jobs", .mapV (YamlMap.ofList
       [(chars "scheduled", .mapV (YamlMap.ofList
         [(chars "runs-on", .strV (chars "ubuntu-latest")),
          (chars "steps", .seqV (YamlSeq.ofList
            [.mapV (YamlMap.ofList
              [(chars "name", .strV (chars "Setup deno")),
               (chars "uses", .strV (chars "denoland/setup-deno@main")),
               (chars "with", .mapV (YamlMap.ofList
                 [(chars "deno-version", .strV (chars "v1.10.x"))]))]),
             .mapV (YamlMap.ofList
               [(chars "name", .strV (chars "Check out repo")),
                (chars "uses", .strV (chars "actions/checkout@v2"))])]))]))]))])

/-- Embeds `initializeFlatYml`: returns if no workspace folder is open; if
`flat.yml` exists, only opens the preview; otherwise writes the stringified
stub to `.github/workflows/flat.yml` and opens the preview. -/
def initializeFlatYml (workspace : Option String) (fs : FS) :
    FS × List OpenWithCmd :=
  match workspace with
  | none => (fs, [])
  | some root =>
    match fsLookup fs (flatYmlPath root) with
    | some _ => (fs, showEditorExt (some root) true false)
    | none =>
      (fsWrite fs (flatYmlPath root) (stringify flatStub),
       showEditorExt (some root) true false)

/-!
## `FlatConfigEditor`
-/

/-- The handler a webview message is dispatched to by the `switch` in
`resolveCustomTextEditor`'s `onDidReceiveMessage` callback; `noEffect` is
the `default` branch. -/
inductive HandlerAction where
  | showEditor
  | updateTextDocument
  | logStoreSecret
  | loadFiles
  | loadFileContents
  | updateWebviewState
  | loadUrlContents
  | rebuildHtml
  | previewFile
  | noEffect
deriving DecidableEq

/-- Embeds the `switch (e.type)` dispatch of `onDidReceiveMessage`
(part_000 lines 65-106). -/
def dispatchMessage (t : String) : HandlerAction :=
  if t = "openEditor" then .showEditor
  else if t = "updateText" then .updateTextDocument
  else if t = "storeSecret" then .logStoreSecret
  else if t = "refreshFiles" then .loadFiles
  else if t = "getFileContents" then .loadFileContents
  else if t = "refreshState" then .updateWebviewState
  else if t = "getUrlContents" then .loadUrlContents
  else if t = "refreshGitDetails" then .rebuildHtml
  else if t = "previewFile" then .previewFile
  else .noEffect

/-- The incoming message types with a non-`default` switch case. -/
def handledMessageTypes : List String :=
  ["openEditor", "updateText", "storeSecret", "refreshFiles",
   "getFileContents", "refreshState", "getUrlContents", "refreshGitDetails",
   "previewFile"]

/-- A document range, as in `new vscode.Range(sl, sc, el, ec)`. -/
structure TextRange where
  startLine : Nat
  startCol : Nat
  endLine : Nat
  endCol : Nat
deriving DecidableEq

/-- One `edit.replace(uri, range, newText)` of a `WorkspaceEdit`. -/
structure WorkspaceEditOp where
  path : String
  range : TextRange
  newText : FileLines
deriving DecidableEq

/-- Embeds `FlatConfigEditor.updateTextDocument` (part_000 lines 180-205):
reopens `flat.yml` from the workspace root, serializes the incoming data,
and applies a whole-range replacement unless the text is unchanged.
Errors (`.error ()`) model thrown exceptions. -/
def updateTextDocument (workspace : Option String) (fs : FS) (data : YamlVal) :
    Except Unit (Option WorkspaceEditOp) :=
  match workspace with
  | none => .error ()
  | some root =>
    match fsLookup fs (flatYmlPath root) with
    | none => .error ()
    | some docLines =>
      let currentText := docLines
      let newText := serializeWorkflow data
      if currentText = newText then .ok none
      else .ok (some ⟨flatYmlPath root, ⟨0, 0, docLines.length, 0⟩, newText⟩)

/-- A message posted from the extension to the webview. -/
inductive WebMsg where
  | updateFiles (files : List String)
  | returnFileContents (file : String) (contents : FileLines)
  | returnUrlContents (url : String) (contents : String)
  | updateState (config : Option YamlVal)
deriving DecidableEq

/-- Embeds `FlatConfigEditor.loadFiles`: posts the glob results (made
workspace-relative) to the webview; no-op without a workspace folder. -/
def loadFiles (workspace : Option String) (globResult : List String) :
    List WebMsg :=
  match workspace with
  | none => []
  | some root =>
    [.updateFiles (globResult.map
      (fun f => "." ++ (((f.splitOn root).drop 1).headD "")))]

/-- Embeds `FlatConfigEditor.loadFileContents`: posts the contents of the
given workspace file; no-op without a workspace folder or an empty path. -/
def loadFileContents (workspace : Option String) (filePath : String)
    (openDoc : String → Except Unit FileLines) : Except Unit (List WebMsg) :=
  match workspace with
  | none => .ok []
  | some root =>
    if filePath = "" then .ok []
    else
      match openDoc (root ++ "/" ++ filePath) with
      | .error e => .error e
      | .ok docLines => .ok [.returnFileContents filePath docLines]

/-- Embeds `FlatConfigEditor.updateWebviewState`: posts the parsed
configuration with the outgoing command `updateState`. -/
def updateWebviewState (docLines : FileLines) : List WebMsg :=
  [.updateState (parseYaml docLines)]

/-- One host-API effect of `resolveCustomTextEditor`. -/
inductive EditorEvent where
  | subscribeSaveListener
  | registerDisposeHandler
  | setWebviewOptions (enableScripts : Bool)
  | setHtml
  | showErrorMessage (msg : String)
  | execCommand (cmd : String)
  | disposePanel
  | registerMessageHandler
deriving DecidableEq

/-- Embeds `FlatConfigEditor.resolveCustomTextEditor` (part_000 lines
30-107) as its trace of host-API effects, parameterized by whether
`getHtmlForWebview` succeeds or throws. -/
def resolveCustomTextEditor (htmlResult : Except Unit Unit) :
    List EditorEvent :=
  [.subscribeSaveListener, .registerDisposeHandler, .setWebviewOptions true] ++
    (match htmlResult with
     | .ok _ => [.setHtml]
     | .error _ =>
       [.showErrorMessage
          "Please make sure you are in a repository with a valid upstream GitHub remote",
        .execCommand "workbench.action.revertAndCloseActiveEditor",
        .disposePanel]) ++
    [.registerMessageHandler]

/-!
## Markdown document-link command and resolver
-/

/-- Embeds Node's `path.extname` on the characters of a posix path. -/
def extname (p : List Char) : List Char :=
  let b := (p.reverse.takeWhile (fun c => c ≠ '/')).reverse
  let revAfter := b.reverse.takeWhile (fun c => c ≠ '.')
  if b.length ≤ revAfter.length then []
  else if revAfter.length + 1 = b.length then []
  else if b = ['.', '.'] then []
  else '.' :: revAfter.reverse

/-- One open attempt performed by `OpenDocumentLinkCommand.execute`. -/
inductive LinkEvent where
  | tryOpenAttempt (target : String)
  | vscodeOpenCommand (target : String)
deriving DecidableEq

/-- Embeds `OpenDocumentLinkCommand.execute` (part_000 lines 560-574): try
to open the target; on failure, retry once with `.md` appended when the
path has no extension, else fall back to the `vscode.open` command.
Returns the trace of attempts and the outcome. -/
def openDocumentLinkExecute (tryOpenResult : String → Except Unit Unit)
    (targetPath : String) : List LinkEvent × Except Unit (Option Unit) :=
  match tryOpenResult targetPath with
  | .ok r => ([.tryOpenAttempt targetPath], .ok (some r))
  | .error _ =>
    if extname targetPath.data = [] then
      match tryOpenResult (targetPath ++ ".md") with
      | .ok r =>
        ([.tryOpenAttempt targetPath, .tryOpenAttempt (targetPath ++ ".md")],
         .ok (some r))
      | .error e =>
        ([.tryOpenAttempt targetPath, .tryOpenAttempt (targetPath ++ ".md")],
         .error e)
    else
      ([.tryOpenAttempt targetPath, .vscodeOpenCommand targetPath], .ok none)

/-- Embeds `tryResolveLinkToMarkdownFile` (part_000 lines 642-655): the
`openTextDocument` failure is caught and becomes `undefined`; otherwise the
uri is returned when the document is a Markdown file. -/
def tryResolveLinkToMarkdownFile {α : Type} (openDoc : String → Except Unit α)
    (isMd : α → Bool) (path : String) : Except Unit (Option String) :=
  match openDoc path with
  | .error _ => .ok none
  | .ok d => .ok (if isMd d then some path else none)

/-- Embeds `resolveLinkToMarkdownFile` (part_000 lines 624-640): the first
attempt's errors are swallowed by a bare catch; with no extension a second
attempt appends `.md`; otherwise `undefined`. -/
def resolveLinkToMarkdownFile {α : Type} (openDoc : String → Except Unit α)
    (isMd : α → Bool) (path : String) : Except Unit (Option String) :=
  let first :=
    match tryResolveLinkToMarkdownFile openDoc isMd path with
    | .error _ => none
    | .ok r => r
  match first with
  | some link => .ok (some link)
  | none =>
    if extname path.data = [] then
      tryResolveLinkToMarkdownFile openDoc isMd (path ++ ".md")
    else .ok none

/-!
## `createAzureFunction`
-/

/-- The user's answer to the "project must be opened" error dialog. -/
inductive ProjChoice where
  | learnMore
  | createProject
deriving DecidableEq

/-- SQL binding kind offered in the quick pick. -/
inductive SqlBindingType where
  | input
  | output
deriving DecidableEq

/-- Outcomes of the host calls and prompts `createAzureFunction` awaits.
Watcher 0 is the host-file watcher, watcher 1 the function-file watcher. -/
structure AFParams where
  apiAvailable : Bool
  projectFile0 : Option String
  projectCreateChoice : Option ProjChoice
  createProjResult : Except Unit Unit
  hostRace : Except Unit String
  projectFile1 : Option String
  inputBoxResult : Option String
  createFnResult : Except Unit Unit
  fnRace : Except Unit String
  quickPickResult : Option SqlBindingType

/-- One host-API effect of `createAzureFunction`. -/
inductive AFEvent where
  | createWatcher (id : Nat)
  | disposeWatcher (id : Nat)
  | showErrorMessage (which : String)
  | execCommand (cmd : String)
  | createFunctionCall
  | showInputBox
  | showQuickPick
  | addNugetReference
  | addConnectionStringToConfig
  | addSqlBinding
  | overwriteMethodBody
deriving DecidableEq

/-- The `if (projectFile)` half of `createAzureFunction` (part_000 lines
399-470): watcher 1 is created before the `try` and disposed in its
`finally`; thrown errors propagate after the disposal. -/
def afterProject (p : AFParams) (acc : List AFEvent) :
    Option String → List AFEvent × Except Unit Unit
  | none => (acc, .ok ())
  | some _ =>
    let acc1 := acc ++ [AFEvent.createWatcher 1, AFEvent.showInputBox]
    match p.inputBoxResult with
    | none => (acc1 ++ [.disposeWatcher 1], .ok ())
    | some fn =>
      if fn = "" then (acc1 ++ [.disposeWatcher 1], .ok ())
      else
        let acc2 := acc1 ++ [AFEvent.createFunctionCall]
        match p.createFnResult with
        | .error e => (acc2 ++ [.disposeWatcher 1], .error e)
        | .ok _ =>
          match p.fnRace with
          | .error e => (acc2 ++ [.disposeWatcher 1], .error e)
          | .ok _ =>
            let acc3 := acc2 ++ [AFEvent.disposeWatcher 1, AFEvent.showQuickPick]
            match p.quickPickResult with
            | none => (acc3, .ok ())
            | some _ =>
              (acc3 ++ [.addNugetReference, .addConnectionStringToConfig,
                        .addSqlBinding, .overwriteMethodBody], .ok ())

/-- Embeds `createAzureFunction` (part_000 lines 362-471) as its trace of
host-API effects and outcome.  Watcher 0 is created by
`waitForNewHostFile` and disposed in the first `finally`; the `catch`
shows `errorNewAzureFunction` and returns. -/
def createAzureFunction (p : AFParams) : List AFEvent × Except Unit Unit :=
  if !p.apiAvailable then ([], .ok ())
  else
    match p.projectFile0 with
    | some pf => afterProject p [] (some pf)
    | none =>
      match p.projectCreateChoice with
      | some .learnMore => ([.execCommand "vscode.open"], .ok ())
      | none => afterProject p [] none
      | some .createProject =>
        let evs0 := [AFEvent.createWatcher 0, AFEvent.createFunctionCall]
        match p.createProjResult with
        | .error _ =>
          (evs0 ++ [.showErrorMessage "errorNewAzureFunction", .disposeWatcher 0],
           .ok ())
        | .ok _ =>
          match p.hostRace with
          | .error _ =>
            (evs0 ++ [.showErrorMessage "errorNewAzureFunction", .disposeWatcher 0],
             .ok ())
          | .ok hostFile =>
            afterProject p (evs0 ++ [.disposeWatcher 0])
              (if hostFile = "" then none else p.projectFile1)

/-!
## Measures and helpers for the round-trip proof
-/

mutual
/-- Size of a YAML value, used as parser fuel. -/
def ySize : YamlVal → Nat
  | .seqV s => sSize s + 1
  | .mapV m => mSize m + 1
  | _ => 1

/-- Size of a YAML sequence. -/
def sSize : YamlSeq → Nat
  | .nil => 1
  | .cons v tl => ySize v + sSize tl + 1

/-- Size of a YAML map. -/
def mSize : YamlMap → Nat
  | .nil => 1
  | .cons _ v tl => ySize v + mSize tl + 1
end

/-- The lines following a serialized block are outdented: empty, or with a
first line strictly less indented than the block. -/
def stopper (ind : Nat) : List Line → Prop
  | [] => True
  | l :: _ => countIndent l < ind

/-- Fetch the value of a top-level key of a YAML map value. -/
def yamlGet : YamlVal → String → Option YamlVal
  | .mapV m, key => m.find (chars key)
  | _, _ => none

/-!
## Theorems
-/

/-- Writing a file makes it readable back. -/
theorem fsLookup_fsWrite (fs : FS) (path : String) (content : FileLines) :
    fsLookup (fsWrite fs path content) path = some content := by
  induction fs with
  | nil => simp [fsWrite, fsLookup]
  | cons hd tl ih =>
    obtain ⟨p, c⟩ := hd
    by_cases h : p = path
    · simp [fsWrite, fsLookup, h]
    · simp [fsWrite, fsLookup, h, ih]

/-- C8: with no workspace folder open, `initializeFlatYml` and `showEditor`
leave the file system untouched and execute no command, and `loadFiles` and
`loadFileContents` post no message to the webview. -/
theorem C8_no_workspace_noop (fs : FS) (p s : Bool) (g : List String)
    (fp : String) (o : String → Except Unit FileLines) :
    initializeFlatYml none fs = (fs, []) ∧
    showEditorExt none p s = [] ∧
    loadFiles none g = [] ∧
    loadFileContents none fp o = .ok [] :=
  ⟨rfl, rfl, rfl, rfl⟩

/-- C9: when `.github/workflows/flat.yml` already exists, `initializeFlatYml`
changes no file and only opens the preview editor. -/
theorem C9_no_overwrite (root : String) (fs : FS) (content : FileLines)
    (h : fsLookup fs (flatYmlPath root) = some content) :
    initializeFlatYml (some root) fs =
      (fs, [⟨flatYmlPath root, "flat.config", false⟩]) := by
  simp [initializeFlatYml, h, showEditorExt]

/-- Witness for C9 at a concrete file system that already has a `flat.yml`. -/
theorem C9_witness :
    initializeFlatYml (some "/ws") [(flatYmlPath "/ws", [])] =
      ([(flatYmlPath "/ws", [])], [⟨flatYmlPath "/ws", "flat.config", false⟩]) :=
  C9_no_overwrite "/ws" [(flatYmlPath "/ws", [])] [] (by simp [fsLookup])

/-- C3: in a workspace without `.github/workflows/flat.yml`,
`initializeFlatYml` writes exactly the YAML stringification of the stub
object into that path and opens the preview; the stub carries name `data`,
the cron/workflow_dispatch/push triggers, and the single `scheduled` job
with the setup-deno and checkout steps. -/
theorem C3_initialize_writes_stub (root : String) (fs : FS)
    (h : fsLookup fs (flatYmlPath root) = none) :
    (initializeFlatYml (some root) fs).1 =
      fsWrite fs (flatYmlPath root) (stringify flatStub) ∧
    fsLookup (initializeFlatYml (some root) fs).1 (flatYmlPath root) =
      some (stringify flatStub) ∧
    (initializeFlatYml (some root) fs).2 =
      [⟨flatYmlPath root, "flat.config", false⟩] ∧
    yamlGet flatStub "name" = some (.strV (chars "data")) ∧
    (yamlGet flatStub "on").bind (yamlGet · "schedule") =
      some (.seqV (YamlSeq.ofList
        [.mapV (YamlMap.ofList [(chars "cron", .strV (chars "0 0 * * *"))])])) ∧
    (yamlGet flatStub "on").bind (yamlGet · "workflow_dispatch") =
      some (.mapV .nil) ∧
    (yamlGet flatStub "on").bind (yamlGet · "push") =
      some (.mapV (YamlMap.ofList
        [(chars "paths",
          .seqV (YamlSeq.ofList [.strV (chars ".github/workflows/flat.yml")]))])) ∧
    yamlGet flatStub "jobs" = some (.mapV (YamlMap.ofList
      [(chars "scheduled", .mapV (YamlMap.ofList
        [(chars "runs-on", .strV (chars "ubuntu-latest")),
         (chars "steps", .seqV (YamlSeq.ofList
           [.mapV (YamlMap.ofList
             [(chars "name", .strV (chars "Setup deno")),
              (chars "uses", .strV (chars "denoland/setup-deno@main")),
              (chars "with", .mapV (YamlMap.ofList
                [(chars "deno-version", .strV (chars "v1.10.x"))]))]),
            .mapV (YamlMap.ofList
              [(chars "name", .strV (chars "Check out repo")),
               (chars "uses", .strV (chars "actions/checkout@v2"))])]))]))])) := by
  refine ⟨?_, ?_, ?_, ?_, ?_, ?_, ?_, ?_⟩
  · simp [initializeFlatYml, h]
  · simp [initializeFlatYml, h, fsLookup_fsWrite]
  · simp [initializeFlatYml, h, showEditorExt]
  · decide
  · decide
  · decide
  · decide
  · decide

/-- Witness for C3 in an empty workspace. -/
theorem C3_witness :
    fsLookup (initializeFlatYml (some "/ws") []).1 (flatYmlPath "/ws") =
      some (stringify flatStub) :=
  (C3_initialize_writes_stub "/ws" [] rfl).2.1

/-- C1 fails as stated: when the incoming data serializes to exactly the
current document text, `updateTextDocument` applies no workspace edit at
all (the early `currentText === newText` return), so the whole-range
replacement does not happen for every incoming data value. -/
theorem C1_counterexample :
    updateTextDocument (some "/ws")
      [(flatYmlPath "/ws", serializeWorkflow (.strV (chars "hello")))]
      (.strV (chars "hello")) = .ok none := by
  rfl

/-- C1 (amended): whenever the serialization of the incoming data differs
from the current `flat.yml` text, the applied edit replaces the document's
entire range, from (0,0) to (lineCount,0), with that serialization; when
they coincide no edit is applied. -/
theorem C1_full_range_replace (root : String) (fs : FS) (data : YamlVal)
    (docLines : FileLines)
    (h : fsLookup fs (flatYmlPath root) = some docLines)
    (hne : serializeWorkflow data ≠ docLines) :
    updateTextDocument (some root) fs data =
      .ok (some ⟨flatYmlPath root, ⟨0, 0, docLines.length, 0⟩,
        serializeWorkflow data⟩) := by
  simp only [updateTextDocument, h]
  rw [if_neg (fun hEq => hne hEq.symm)]

/-- Witness for C1 at a concrete document whose text differs from the
serialized data. -/
theorem C1_witness :
    updateTextDocument (some "/ws") [(flatYmlPath "/ws", [])] .nullV =
      .ok (some ⟨flatYmlPath "/ws", ⟨0, 0, 0, 0⟩, serializeWorkflow .nullV⟩) :=
  C1_full_range_replace "/ws" [(flatYmlPath "/ws", [])] .nullV []
    (by simp [fsLookup]) (by decide)

/-- C2 fails as stated: `updateState` is not an incoming type the switch
dispatches (it hits the `default` branch), while `previewFile` — absent
from the claimed list — is dispatched to a handler. -/
theorem C2_counterexample :
    dispatchMessage "updateState" = .noEffect ∧
    dispatchMessage "previewFile" = .previewFile ∧
    HandlerAction.previewFile ≠ HandlerAction.noEffect := by
  refine ⟨by decide, by decide, by decide⟩

/-- C2 (amended): the incoming message types dispatched to a handler are
exactly `openEditor`, `updateText`, `storeSecret`, `refreshFiles`,
`getFileContents`, `refreshState`, `getUrlContents`, `refreshGitDetails`
and `previewFile`; every other type has no effect.  `updateState` is the
outgoing command `updateWebviewState` posts, not an incoming type. -/
theorem C2_handled_types (t : String) (doc : FileLines) :
    (dispatchMessage t ≠ HandlerAction.noEffect ↔ t ∈ handledMessageTypes) ∧
    updateWebviewState doc = [WebMsg.updateState (parseYaml doc)] := by
  constructor
  · unfold dispatchMessage handledMessageTypes
    split_ifs <;> simp_all
  · rfl

/-- C4 fails as stated: when the first open of an extension-less target
fails, `OpenDocumentLinkCommand.execute` attempts the open again with a
modified target — the path with `.md` appended. -/
theorem C4_counterexample :
    (openDocumentLinkExecute (fun _ => .error ()) "docs/readme").1 =
      [.tryOpenAttempt "docs/readme", .tryOpenAttempt "docs/readme.md"] ∧
    ("docs/readme.md" : String) ≠ "docs/readme" := by
  exact ⟨by rfl, by decide⟩

/-- C4 (amended): `execute` makes at most two open attempts; a second
`tryOpen` attempt happens exactly when the first fails on an extension-less
path, and then only with the `.md`-appended target, which differs from the
original; otherwise a failure falls back to the `vscode.open` command on
the unmodified target.  The same target is never retried. -/
theorem C4_retry_structure (o : String → Except Unit Unit) (p : String) :
    (openDocumentLinkExecute o p).1 = [.tryOpenAttempt p] ∨
    (openDocumentLinkExecute o p).1 =
      [.tryOpenAttempt p, .vscodeOpenCommand p] ∨
    (extname p.data = [] ∧ o p = .error () ∧
      (openDocumentLinkExecute o p).1 =
        [.tryOpenAttempt p, .tryOpenAttempt (p ++ ".md")] ∧
      p ++ ".md" ≠ p) := by
  have hne : p ++ ".md" ≠ p := by
    intro hEq
    have hlen := congrArg String.length hEq
    rw [String.length_append] at hlen
    have h3 : (".md" : String).length = 3 := rfl
    omega
  unfold openDocumentLinkExecute
  cases ho : o p with
  | ok r => left; rfl
  | error e =>
    by_cases hext : extname p.data = []
    · right; right
      cases e
      refine ⟨hext, rfl, ?_, hne⟩
      rw [if_pos hext]
      cases o (p ++ ".md") <;> rfl
    · right; left
      rw [if_neg hext]

/-- C5: `resolveLinkToMarkdownFile` never raises: its bare catch blocks
swallow every failure of the underlying document open, which results in
`undefined` or in falling through to the `.md`-extension attempt. -/
theorem C5_resolver_never_throws (α : Type)
    (openDoc : String → Except Unit α) (isMd : α → Bool) (path : String) :
    (∃ r, resolveLinkToMarkdownFile openDoc isMd path = .ok r) ∧
    (∀ e, openDoc path = .error e →
      resolveLinkToMarkdownFile openDoc isMd path =
        (if extname path.data = [] then
          tryResolveLinkToMarkdownFile openDoc isMd (path ++ ".md")
         else .ok none)) := by
  have h2 : ∀ q, ∃ r, tryResolveLinkToMarkdownFile openDoc isMd q = .ok r := by
    intro q
    unfold tryResolveLinkToMarkdownFile
    cases openDoc q with
    | error e => exact ⟨_, rfl⟩
    | ok d => exact ⟨_, rfl⟩
  constructor
  · unfold resolveLinkToMarkdownFile
    cases hfe : (match tryResolveLinkToMarkdownFile openDoc isMd path with
        | .error _ => none
        | .ok r => r : Option String) with
    | some link => exact ⟨_, rfl⟩
    | none =>
      simp only
      by_cases hext : extname path.data = []
      · rw [if_pos hext]; exact h2 _
      · rw [if_neg hext]; exact ⟨_, rfl⟩
  · intro e he
    unfold resolveLinkToMarkdownFile tryResolveLinkToMarkdownFile
    rw [he]

/-- Witness for C5: a concrete failing open on a path with an extension
yields `undefined` without an exception. -/
theorem C5_witness :
    resolveLinkToMarkdownFile (fun _ => (Except.error () : Except Unit Unit))
      (fun _ : Unit => false) "a.txt" = Except.ok none := by
  have h := (C5_resolver_never_throws Unit (fun _ => Except.error ())
    (fun _ : Unit => false) "a.txt").2 () rfl
  rw [h, if_neg (by decide)]

/-- C7 fails as stated: when building the webview HTML throws, the handler
does show the error message, execute the close command and dispose the
panel — but it then still registers the webview message handler, a further
webview initialization step after the failure. -/
theorem C7_counterexample :
    resolveCustomTextEditor (.error ()) =
      [.subscribeSaveListener, .registerDisposeHandler,
       .setWebviewOptions true,
       .showErrorMessage
         "Please make sure you are in a repository with a valid upstream GitHub remote",
       .execCommand "workbench.action.revertAndCloseActiveEditor",
       .disposePanel, .registerMessageHandler] ∧
    (resolveCustomTextEditor (.error ())).getLast? =
      some EditorEvent.registerMessageHandler := by
  exact ⟨rfl, rfl⟩

/-- C7 (amended): on an HTML-building failure the handler shows the error
message, executes the revert-and-close command and disposes the panel, and
never sets the webview HTML — but it still registers the message handler
afterwards; and `createAzureFunction` shows `errorNewAzureFunction` and
returns normally when the project-creation step throws, its watcher
disposed. -/
theorem C7_error_handling :
    (∀ e : Unit,
      resolveCustomTextEditor (.error e) =
        [.subscribeSaveListener, .registerDisposeHandler,
         .setWebviewOptions true,
         .showErrorMessage
           "Please make sure you are in a repository with a valid upstream GitHub remote",
         .execCommand "workbench.action.revertAndCloseActiveEditor",
         .disposePanel, .registerMessageHandler] ∧
      EditorEvent.setHtml ∉ resolveCustomTextEditor (.error e)) ∧
    (∀ p : AFParams, p.apiAvailable = true → p.projectFile0 = none →
      p.projectCreateChoice = some .createProject →
      p.createProjResult = .error () →
      createAzureFunction p =
        ([.createWatcher 0, .createFunctionCall,
          .showErrorMessage "errorNewAzureFunction", .disposeWatcher 0],
         .ok ())) := by
  constructor
  · intro e
    cases e
    exact ⟨rfl, by decide⟩
  · intro p h1 h2 h3 h4
    simp [createAzureFunction, h1, h2, h3, h4]

/-- Witness for C7 at a concrete parameter record whose project-creation
step throws. -/
theorem C7_witness :
    createAzureFunction
      ⟨true, none, some .createProject, .error (), .ok "", none, none,
       .ok (), .ok "", none⟩ =
      ([.createWatcher 0, .createFunctionCall,
        .showErrorMessage "errorNewAzureFunction", .disposeWatcher 0],
       .ok ()) :=
  C7_error_handling.2 _ rfl rfl rfl rfl

/-- Watcher events of the `afterProject` half: watcher 1 is created iff a
project file is present, and is then always disposed, on every exit path. -/
theorem afterProject_watchers (p : AFParams) (acc : List AFEvent)
    (pf : Option String) (w : Nat) :
    (AFEvent.createWatcher w ∈ (afterProject p acc pf).1 ↔
      AFEvent.createWatcher w ∈ acc ∨ (pf.isSome ∧ w = 1)) ∧
    (AFEvent.disposeWatcher w ∈ (afterProject p acc pf).1 ↔
      AFEvent.disposeWatcher w ∈ acc ∨ (pf.isSome ∧ w = 1)) := by
  cases pf with
  | none => simp [afterProject]
  | some s =>
    cases hib : p.inputBoxResult with
    | none => simp [afterProject, hib]
    | some fn =>
      by_cases hfn : fn = ""
      · simp [afterProject, hib, hfn]
      · cases hcf : p.createFnResult with
        | error e => simp [afterProject, hib, hfn, hcf]
        | ok u =>
          cases hfr : p.fnRace with
          | error e => simp [afterProject, hib, hfn, hcf, hfr]
          | ok s2 =>
            cases hqp : p.quickPickResult with
            | none => simp [afterProject, hib, hfn, hcf, hfr, hqp]
            | some b => simp [afterProject, hib, hfn, hcf, hfr, hqp]

/-- C10: every file-system watcher `createAzureFunction` creates is
disposed on every exit path — success, timeout, user cancellation, or
thrown error — because the disposal sits in a `finally` clause. -/
theorem C10_watchers_disposed (p : AFParams) (w : Nat)
    (h : AFEvent.createWatcher w ∈ (createAzureFunction p).1) :
    AFEvent.disposeWatcher w ∈ (createAzureFunction p).1 := by
  cases hapi : p.apiAvailable with
  | false => simp [createAzureFunction, hapi] at h
  | true =>
    cases hpf : p.projectFile0 with
    | some pf =>
      simp only [createAzureFunction, hapi, hpf, Bool.not_true,
        Bool.false_eq_true, if_false] at h ⊢
      have hm := afterProject_watchers p [] (some pf) w
      rw [hm.2]
      rcases hm.1.mp h with hacc | hw1
      · simp at hacc
      · exact Or.inr hw1
    | none =>
      cases hch : p.projectCreateChoice with
      | none =>
        simp only [createAzureFunction, hapi, hpf, hch, Bool.not_true,
          Bool.false_eq_true, if_false] at h ⊢
        have hm := afterProject_watchers p [] none w
        rw [hm.2]
        rcases hm.1.mp h with hacc | hw1
        · simp at hacc
        · simp at hw1
      | some c =>
        cases c with
        | learnMore =>
          simp [createAzureFunction, hapi, hpf, hch] at h
        | createProject =>
          cases hcp : p.createProjResult with
          | error e =>
            simp [createAzureFunction, hapi, hpf, hch, hcp] at h ⊢
            omega
          | ok u =>
            cases hr : p.hostRace with
            | error e =>
              simp [createAzureFunction, hapi, hpf, hch, hcp, hr] at h ⊢
              omega
            | ok hostFile =>
              simp only [createAzureFunction, hapi, hpf, hch, hcp, hr,
                Bool.not_true, Bool.false_eq_true, if_false,
                List.cons_append, List.nil_append] at h ⊢
              have hm := afterProject_watchers p
                [AFEvent.createWatcher 0, AFEvent.createFunctionCall,
                 AFEvent.disposeWatcher 0]
                (if hostFile = "" then none else p.projectFile1) w
              rw [hm.2]
              rcases hm.1.mp h with hacc | hw1
              · simp at hacc
                subst hacc
                left; simp
              · exact Or.inr hw1

/-- Witness for C10: the host-file watcher created in the failing
project-creation flow is indeed disposed. -/
theorem C10_witness :
    AFEvent.createWatcher 0 ∈
      (createAzureFunction
        ⟨true, none, some .createProject, .error (), .ok "", none, none,
         .ok (), .ok "", none⟩).1 ∧
    AFEvent.disposeWatcher 0 ∈
      (createAzureFunction
        ⟨true, none, some .createProject, .error (), .ok "", none, none,
         .ok (), .ok "", none⟩).1 :=
  ⟨by decide,
   C10_watchers_disposed
     ⟨true, none, some .createProject, .error (), .ok "", none, none,
      .ok (), .ok "", none⟩ 0 (by decide)⟩

/-!
### Round-trip lemmas for the YAML model
-/

/-- Sizes of YAML values are positive. -/
theorem ySize_pos (v : YamlVal) : 1 ≤ ySize v := by
  cases v <;> simp [ySize]

/-- Sizes of YAML sequences are positive. -/
theorem sSize_pos (s : YamlSeq) : 1 ≤ sSize s := by
  cases s <;> simp [sSize]

/-- Sizes of YAML maps are positive. -/
theorem mSize_pos (m : YamlMap) : 1 ≤ mSize m := by
  cases m <;> simp [mSize]

/-- Scalar-like values have size at most 2. -/
theorem scalarStr_ySize_le {v : YamlVal} {s : List Char}
    (h : scalarStr v = some s) : ySize v ≤ 2 := by
  cases v with
  | nullV => simp [ySize]
  | boolV b => simp [ySize]
  | strV t => simp [ySize]
  | seqV it => cases it with
    | nil => simp [ySize, sSize]
    | cons a b => simp [scalarStr] at h
  | mapV en => cases en with
    | nil => simp [ySize, mSize]
    | cons k a b => simp [scalarStr] at h

/-- The indent of an indented line whose content does not start with a
space. -/
theorem countIndent_indentChars (n : Nat) (h : Char) (t : List Char)
    (hh : h ≠ ' ') : countIndent (indentChars n ++ h :: t) = n := by
  induction n with
  | zero =>
    simp only [indentChars, List.replicate, List.nil_append]
    unfold countIndent
    split
    · rename_i heq
      rw [List.cons.injEq] at heq
      exact absurd heq.1 hh
    · rfl
  | succ k ih =>
    simp only [indentChars, List.replicate, List.cons_append]
    rw [show countIndent (' ' :: (List.replicate k ' ' ++ h :: t)) =
      countIndent (List.replicate k ' ' ++ h :: t) + 1 from rfl]
    rw [show (List.replicate k ' ' : List Char) = indentChars k from rfl] at *
    omega

/-- Dropping the indent of such a line returns its content. -/
theorem dropIndent_indentChars (n : Nat) (h : Char) (t : List Char)
    (hh : h ≠ ' ') : dropIndent (indentChars n ++ h :: t) = h :: t := by
  induction n with
  | zero =>
    simp only [indentChars, List.replicate, List.nil_append]
    unfold dropIndent
    split
    · rename_i heq
      rw [List.cons.injEq] at heq
      exact absurd heq.1 hh
    · rfl
  | succ k ih =>
    simp only [indentChars, List.replicate, List.cons_append]
    rw [show dropIndent (' ' :: (List.replicate k ' ' ++ h :: t)) =
      dropIndent (List.replicate k ' ' ++ h :: t) from rfl]
    exact ih

/-- Safe plain characters are neither `:` nor `"`. -/
theorem safeChar_facts {c : Char} (h : safeChar c = true) :
    c ≠ ':' ∧ c ≠ '"' := by
  constructor <;> rintro rfl <;> exact absurd h (by decide)

/-- Structure of strings that are rendered plain. -/
theorem needsQuote_false_facts {s : List Char} (hq : needsQuote s = false) :
    ∃ h t, s = h :: t ∧ reservedWord s = false ∧
      (∀ c ∈ s, safeChar c = true) ∧ h ≠ '-' ∧ h ≠ ' ' ∧ h ≠ '"' := by
  cases s with
  | nil => simp [needsQuote] at hq
  | cons h t =>
    simp only [needsQuote, Bool.or_eq_false_iff, Bool.not_eq_false,
      Bool.and_eq_false_iff, decide_eq_false_iff_not] at hq
    obtain ⟨⟨⟨⟨⟨⟨hres, hall⟩, hdash⟩, hsp⟩, hstar⟩, -⟩, -⟩ := hq
    rw [Bool.not_eq_false'] at hall
    refine ⟨h, t, rfl, hres, ?_, hdash, hsp, ?_⟩
    · intro c hc
      exact List.all_eq_true.mp hall c hc
    · intro hEq
      have hsafe : safeChar h = true :=
        List.all_eq_true.mp hall h (List.mem_cons_self h t)
      rw [hEq] at hsafe
      exact absurd hsafe (by decide)

/-- A rendered string scalar is nonempty and starts with neither a space
nor a dash. -/
theorem renderStr_shape (s : List Char) :
    ∃ h t, renderStr s = h :: t ∧ h ≠ ' ' ∧ h ≠ '-' := by
  unfold renderStr
  by_cases hq : needsQuote s
  · rw [if_pos hq]
    exact ⟨'"', _, rfl, by decide, by decide⟩
  · rw [if_neg hq]
    rw [Bool.not_eq_true] at hq
    obtain ⟨h, t, rfl, -, -, hdash, hsp, -⟩ := needsQuote_false_facts hq
    exact ⟨h, t, rfl, hsp, hdash⟩

/-- Scanning the escaped body of a quoted scalar recovers the string and
the remainder after the closing quote. -/
theorem scanQuoted_escapeStr (s : List Char) (r : List Char) :
    scanQuoted (escapeStr s ++ '"' :: r) = some (s, r) := by
  induction s with
  | nil => simp [escapeStr, scanQuoted]
  | cons c t ih =>
    show scanQuoted ((escapeChar c ++ escapeStr t) ++ '"' :: r) = _
    rw [List.append_assoc]
    unfold escapeChar
    by_cases h1 : c = '\\'
    · subst h1
      rw [if_pos rfl]
      show scanQuoted ('\\' :: '\\' :: (escapeStr t ++ '"' :: r)) = _
      simp [scanQuoted, scanEscaped, ih]
    · rw [if_neg h1]
      by_cases h2 : c = '"'
      · subst h2
        rw [if_pos rfl]
        show scanQuoted ('\\' :: '"' :: (escapeStr t ++ '"' :: r)) = _
        simp [scanQuoted, scanEscaped, ih]
      · rw [if_neg h2]
        by_cases h3 : c = '\n'
        · subst h3
          rw [if_pos rfl]
          show scanQuoted ('\\' :: 'n' :: (escapeStr t ++ '"' :: r)) = _
          simp [scanQuoted, scanEscaped, ih]
        · rw [if_neg h3]
          show scanQuoted (c :: (escapeStr t ++ '"' :: r)) = _
          simp [scanQuoted, h1, h2, ih]

/-- Splitting a line that starts with an all-safe key prefix. -/
theorem plainKeySplit_append (k tail : List Char)
    (hk : ∀ c ∈ k, safeChar c = true) :
    plainKeySplit (k ++ tail) =
      (plainKeySplit tail).map (fun p => (k ++ p.1, p.2)) := by
  induction k with
  | nil =>
    simp only [List.nil_append]
    cases plainKeySplit tail with
    | none => simp
    | some p => simp
  | cons ch k' ih =>
    obtain ⟨hc1, hc2⟩ := safeChar_facts (hk ch (List.mem_cons_self ch k'))
    have ih' := ih (fun c hc => hk c (List.mem_cons_of_mem ch hc))
    show plainKeySplit (ch :: (k' ++ tail)) = _
    rw [show plainKeySplit (ch :: (k' ++ tail)) =
      (if ch = ':' then
        (match k' ++ tail with
         | [] => some ([], none)
         | ' ' :: v => some ([], some v)
         | _ => none)
       else if ch = '"' then none
       else (plainKeySplit (k' ++ tail)).map (fun p => (ch :: p.1, p.2)))
      from rfl]
    rw [if_neg hc1, if_neg hc2, ih']
    cases plainKeySplit tail with
    | none => simp
    | some p => simp

/-- An all-safe string is not a key line. -/
theorem plainKeySplit_safe_none (s : List Char)
    (hs : ∀ c ∈ s, safeChar c = true) : plainKeySplit s = none := by
  have h := plainKeySplit_append s [] hs
  simpa [plainKeySplit] using h

/-- A rendered key followed by `: value` splits into the key and the
inline value. -/
theorem parseKeyLine_inlineKey (k s : List Char) :
    parseKeyLine (renderStr k ++ ':' :: ' ' :: s) = some (k, some s) := by
  unfold renderStr
  by_cases hq : needsQuote k
  · rw [if_pos hq]
    show parseKeyLine ('"' :: ((escapeStr k ++ ['"']) ++ ':' :: ' ' :: s)) = _
    rw [List.append_assoc]
    show parseKeyLine ('"' :: (escapeStr k ++ '"' :: ':' :: ' ' :: s)) = _
    rw [show parseKeyLine ('"' :: (escapeStr k ++ '"' :: ':' :: ' ' :: s)) =
      (if ('"' : Char) = '"' then
        (match scanQuoted (escapeStr k ++ '"' :: ':' :: ' ' :: s) with
         | some (k2, ':' :: []) => some (k2, none)
         | some (k2, ':' :: ' ' :: v) => some (k2, some v)
         | _ => none)
       else plainKeySplit ('"' :: (escapeStr k ++ '"' :: ':' :: ' ' :: s)))
      from rfl]
    rw [if_pos rfl, scanQuoted_escapeStr]
    rfl
  · rw [if_neg hq]
    rw [Bool.not_eq_true] at hq
    obtain ⟨h, t, heq, -, hall, -, -, hquote⟩ := needsQuote_false_facts hq
    subst heq
    show parseKeyLine (h :: (t ++ ':' :: ' ' :: s)) = _
    rw [show parseKeyLine (h :: (t ++ ':' :: ' ' :: s)) =
      (if h = '"' then
        (match scanQuoted (t ++ ':' :: ' ' :: s) with
         | some (k2, ':' :: []) => some (k2, none)
         | some (k2, ':' :: ' ' :: v) => some (k2, some v)
         | _ => none)
       else plainKeySplit (h :: (t ++ ':' :: ' ' :: s))) from rfl]
    rw [if_neg hquote]
    rw [show (h :: (t ++ ':' :: ' ' :: s)) = (h :: t) ++ ':' :: ' ' :: s from rfl]
    rw [plainKeySplit_append (h :: t) (':' :: ' ' :: s) hall]
    simp [plainKeySplit]

/-- A rendered key followed by a bare `:` splits into the key and no
inline value. -/
theorem parseKeyLine_blockKey (k : List Char) :
    parseKeyLine (renderStr k ++ [':']) = some (k, none) := by
  unfold renderStr
  by_cases hq : needsQuote k
  · rw [if_pos hq]
    show parseKeyLine ('"' :: ((escapeStr k ++ ['"']) ++ [':'])) = _
    rw [List.append_assoc]
    show parseKeyLine ('"' :: (escapeStr k ++ '"' :: [':'])) = _
    rw [show parseKeyLine ('"' :: (escapeStr k ++ '"' :: [':'])) =
      (if ('"' : Char) = '"' then
        (match scanQuoted (escapeStr k ++ '"' :: [':']) with
         | some (k2, ':' :: []) => some (k2, none)
         | some (k2, ':' :: ' ' :: v) => some (k2, some v)
         | _ => none)
       else plainKeySplit ('"' :: (escapeStr k ++ '"' :: [':']))) from rfl]
    rw [if_pos rfl, scanQuoted_escapeStr]
    rfl
  · rw [if_neg hq]
    rw [Bool.not_eq_true] at hq
    obtain ⟨h, t, heq, -, hall, -, -, hquote⟩ := needsQuote_false_facts hq
    subst heq
    show parseKeyLine (h :: (t ++ [':'])) = _
    rw [show parseKeyLine (h :: (t ++ [':'])) =
      (if h = '"' then
        (match scanQuoted (t ++ [':']) with
         | some (k2, ':' :: []) => some (k2, none)
         | some (k2, ':' :: ' ' :: v) => some (k2, some v)
         | _ => none)
       else plainKeySplit (h :: (t ++ [':']))) from rfl]
    rw [if_neg hquote]
    rw [show (h :: (t ++ [':'])) = (h :: t) ++ [':'] from rfl]
    rw [plainKeySplit_append (h :: t) [':'] hall]
    simp [plainKeySplit]

/-- `parseScalar` on a double-quoted line body. -/
theorem parseScalar_quoted (r : List Char) :
    parseScalar ('"' :: r) =
      (match scanQuoted r with
       | some (s, []) => some (.strV s)
       | _ => none) := by
  unfold parseScalar
  rw [if_neg (by simp [chars]), if_neg (by simp [chars]),
    if_neg (by simp [chars]), if_neg (by simp [chars]),
    if_neg (by simp [chars])]
  rfl

/-- `parseScalar` inverts `renderStr`. -/
theorem parseScalar_renderStr (s : List Char) :
    parseScalar (renderStr s) = some (.strV s) := by
  unfold renderStr
  by_cases hq : needsQuote s
  · rw [if_pos hq]
    rw [show ('"' :: (escapeStr s ++ ['"']) : List Char) =
      '"' :: (escapeStr s ++ '"' :: []) from rfl]
    rw [parseScalar_quoted, scanQuoted_escapeStr]
  · rw [if_neg hq]
    rw [Bool.not_eq_true] at hq
    obtain ⟨h, t, heq, hres, hall, -, -, hquote⟩ := needsQuote_false_facts hq
    subst heq
    simp only [reservedWord, Bool.or_eq_false_iff,
      decide_eq_false_iff_not] at hres
    obtain ⟨⟨⟨⟨h1, h2⟩, h3⟩, h4⟩, h5⟩ := hres
    unfold parseScalar
    rw [if_neg h1, if_neg h2, if_neg h3, if_neg h4, if_neg h5]
    rw [show (match (h :: t : List Char) with
      | [] => none
      | ch :: rest =>
        if ch = '"' then
          match scanQuoted rest with
          | some (s2, []) => some (YamlVal.strV s2)
          | _ => none
        else some (YamlVal.strV (ch :: rest))) =
      (if h = '"' then
        match scanQuoted t with
        | some (s2, []) => some (YamlVal.strV s2)
        | _ => none
       else some (YamlVal.strV (h :: t))) from rfl]
    rw [if_neg hquote]

/-- `parseScalar` inverts `scalarStr`. -/
theorem parseScalar_scalarStr {v : YamlVal} {s : List Char}
    (h : scalarStr v = some s) : parseScalar s = some v := by
  cases v with
  | nullV =>
    simp only [scalarStr, Option.some.injEq] at h
    rw [← h]; decide
  | boolV b =>
    cases b <;> simp only [scalarStr, Option.some.injEq] at h <;>
      rw [← h] <;> decide
  | strV t =>
    simp only [scalarStr, Option.some.injEq] at h
    rw [← h]
    exact parseScalar_renderStr t
  | seqV it =>
    cases it with
    | nil =>
      simp only [scalarStr, Option.some.injEq] at h
      rw [← h]; decide
    | cons a b => simp [scalarStr] at h
  | mapV en =>
    cases en with
    | nil =>
      simp only [scalarStr, Option.some.injEq] at h
      rw [← h]; decide
    | cons k a b => simp [scalarStr] at h

/-- Inline scalar renderings are nonempty and start with neither a space
nor a dash. -/
theorem scalarStr_shape {v : YamlVal} {s : List Char}
    (h : scalarStr v = some s) :
    ∃ hd t, s = hd :: t ∧ hd ≠ ' ' ∧ hd ≠ '-' := by
  cases v with
  | nullV =>
    simp only [scalarStr, Option.some.injEq] at h
    exact ⟨'n', ['u', 'l', 'l'], h.symm, by decide, by decide⟩
  | boolV b =>
    cases b <;> simp only [scalarStr, Option.some.injEq] at h
    · exact ⟨'f', ['a', 'l', 's', 'e'], h.symm, by decide, by decide⟩
    · exact ⟨'t', ['r', 'u', 'e'], h.symm, by decide, by decide⟩
  | strV t =>
    simp only [scalarStr, Option.some.injEq] at h
    obtain ⟨hd, tl, heq, hsp, hdash⟩ := renderStr_shape t
    exact ⟨hd, tl, by rw [← h, heq], hsp, hdash⟩
  | seqV it =>
    cases it with
    | nil =>
      simp only [scalarStr, Option.some.injEq] at h
      exact ⟨'[', [']'], h.symm, by decide, by decide⟩
    | cons a b => simp [scalarStr] at h
  | mapV en =>
    cases en with
    | nil =>
      simp only [scalarStr, Option.some.injEq] at h
      exact ⟨'\x7b', ['\x7d'], h.symm, by decide, by decide⟩
    | cons k a b => simp [scalarStr] at h

/-- Inline scalar renderings are never key lines. -/
theorem parseKeyLine_scalarStr_none {v : YamlVal} {s : List Char}
    (h : scalarStr v = some s) : parseKeyLine s = none := by
  cases v with
  | nullV =>
    simp only [scalarStr, Option.some.injEq] at h
    rw [← h]; decide
  | boolV b =>
    cases b <;> simp only [scalarStr, Option.some.injEq] at h <;>
      rw [← h] <;> decide
  | strV t =>
    simp only [scalarStr, Option.some.injEq] at h
    rw [← h]
    unfold renderStr
    by_cases hq : needsQuote t
    · rw [if_pos hq]
      rw [show ('"' :: (escapeStr t ++ ['"']) : List Char) =
        '"' :: (escapeStr t ++ '"' :: []) from rfl]
      rw [show parseKeyLine ('"' :: (escapeStr t ++ '"' :: [])) =
        (if ('"' : Char) = '"' then
          (match scanQuoted (escapeStr t ++ '"' :: []) with
           | some (k2, ':' :: []) => some (k2, none)
           | some (k2, ':' :: ' ' :: v2) => some (k2, some v2)
           | _ => none)
         else plainKeySplit ('"' :: (escapeStr t ++ '"' :: []))) from rfl]
      rw [if_pos rfl, scanQuoted_escapeStr]
    · rw [if_neg hq]
      rw [Bool.not_eq_true] at hq
      obtain ⟨hd, tl, heq, -, hall, -, -, hquote⟩ := needsQuote_false_facts hq
      subst heq
      rw [show parseKeyLine (hd :: tl) =
        (if hd = '"' then
          (match scanQuoted tl with
           | some (k2, ':' :: []) => some (k2, none)
           | some (k2, ':' :: ' ' :: v2) => some (k2, some v2)
           | _ => none)
         else plainKeySplit (hd :: tl)) from rfl]
      rw [if_neg hquote]
      exact plainKeySplit_safe_none (hd :: tl) hall
  | seqV it =>
    cases it with
    | nil =>
      simp only [scalarStr, Option.some.injEq] at h
      rw [← h]; decide
    | cons a b => simp [scalarStr] at h
  | mapV en =>
    cases en with
    | nil =>
      simp only [scalarStr, Option.some.injEq] at h
      rw [← h]; decide
    | cons k a b => simp [scalarStr] at h


/-- A scalar-like value serializes to a single indented line. -/
theorem yamlLines_scalar {v : YamlVal} {s : List Char}
    (hsv : scalarStr v = some s) (ind : Nat) :
    yamlLines v ind = [indentChars ind ++ s] := by
  cases v with
  | nullV =>
    simp only [scalarStr, Option.some.injEq] at hsv
    rw [← hsv]; rfl
  | boolV b =>
    cases b <;> simp only [scalarStr, Option.some.injEq] at hsv <;>
      rw [← hsv] <;> rfl
  | strV t =>
    simp only [scalarStr, Option.some.injEq] at hsv
    rw [← hsv]; rfl
  | seqV it =>
    cases it with
    | nil =>
      simp only [scalarStr, Option.some.injEq] at hsv
      rw [← hsv]; rfl
    | cons a b => simp [scalarStr] at hsv
  | mapV en =>
    cases en with
    | nil =>
      simp only [scalarStr, Option.some.injEq] at hsv
      rw [← hsv]; rfl
    | cons k a b => simp [scalarStr] at hsv

/-- A scalar-like sequence item is one inline `- ` line. -/
theorem seqItemLines_scalar {v : YamlVal} {s : List Char}
    (hsv : scalarStr v = some s) (ind : Nat) :
    seqItemLines v ind = [indentChars ind ++ '-' :: ' ' :: s] := by
  cases v with
  | nullV =>
    simp only [scalarStr, Option.some.injEq] at hsv
    rw [← hsv]; rfl
  | boolV b =>
    cases b <;> simp only [scalarStr, Option.some.injEq] at hsv <;>
      rw [← hsv] <;> rfl
  | strV t =>
    simp only [scalarStr, Option.some.injEq] at hsv
    rw [← hsv]; rfl
  | seqV it =>
    cases it with
    | nil =>
      simp only [scalarStr, Option.some.injEq] at hsv
      rw [← hsv]; rfl
    | cons a b => simp [scalarStr] at hsv
  | mapV en =>
    cases en with
    | nil =>
      simp only [scalarStr, Option.some.injEq] at hsv
      rw [← hsv]; rfl
    | cons k a b => simp [scalarStr] at hsv

/-- A collection sequence item is a `-` line and an indented child block. -/
theorem seqItemLines_block {v : YamlVal} (hsv : scalarStr v = none)
    (ind : Nat) :
    seqItemLines v ind = (indentChars ind ++ ['-']) :: yamlLines v (ind + 2) := by
  cases v with
  | nullV => simp [scalarStr] at hsv
  | boolV b => cases b <;> simp [scalarStr] at hsv
  | strV t => simp [scalarStr] at hsv
  | seqV it =>
    cases it with
    | nil => simp [scalarStr] at hsv
    | cons a b => rfl
  | mapV en =>
    cases en with
    | nil => simp [scalarStr] at hsv
    | cons k a b => rfl

/-- A scalar-like map entry is one inline `key: ` line. -/
theorem mapEntryLines_scalar {v : YamlVal} {s : List Char} (k : List Char)
    (hsv : scalarStr v = some s) (ind : Nat) :
    mapEntryLines k v ind =
      [indentChars ind ++ renderStr k ++ ':' :: ' ' :: s] := by
  cases v with
  | nullV =>
    simp only [scalarStr, Option.some.injEq] at hsv
    rw [← hsv]; rfl
  | boolV b =>
    cases b <;> simp only [scalarStr, Option.some.injEq] at hsv <;>
      rw [← hsv] <;> rfl
  | strV t =>
    simp only [scalarStr, Option.some.injEq] at hsv
    rw [← hsv]; rfl
  | seqV it =>
    cases it with
    | nil =>
      simp only [scalarStr, Option.some.injEq] at hsv
      rw [← hsv]; rfl
    | cons a b => simp [scalarStr] at hsv
  | mapV en =>
    cases en with
    | nil =>
      simp only [scalarStr, Option.some.injEq] at hsv
      rw [← hsv]; rfl
    | cons k2 a b => simp [scalarStr] at hsv

/-- A collection map entry is a `key:` line and an indented child block. -/
theorem mapEntryLines_block {v : YamlVal} (k : List Char)
    (hsv : scalarStr v = none) (ind : Nat) :
    mapEntryLines k v ind =
      (indentChars ind ++ renderStr k ++ [':']) :: yamlLines v (ind + 2) := by
  cases v with
  | nullV => simp [scalarStr] at hsv
  | boolV b => cases b <;> simp [scalarStr] at hsv
  | strV t => simp [scalarStr] at hsv
  | seqV it =>
    cases it with
    | nil => simp [scalarStr] at hsv
    | cons a b => rfl
  | mapV en =>
    cases en with
    | nil => simp [scalarStr] at hsv
    | cons k2 a b => rfl

/-- The first line of a nonempty block sequence sits at its indentation. -/
theorem seqLines_cons_indent (i : YamlVal) (tl : YamlSeq) (ind : Nat) :
    ∃ l r, seqLines (.cons i tl) ind = l :: r ∧ countIndent l = ind := by
  cases hsi : scalarStr i with
  | some s =>
    rw [show seqLines (.cons i tl) ind = seqItemLines i ind ++ seqLines tl ind
      from rfl]
    rw [seqItemLines_scalar hsi, List.cons_append, List.nil_append]
    exact ⟨_, _, rfl, countIndent_indentChars ind '-' (' ' :: s) (by decide)⟩
  | none =>
    rw [show seqLines (.cons i tl) ind = seqItemLines i ind ++ seqLines tl ind
      from rfl]
    rw [seqItemLines_block hsi, List.cons_append]
    exact ⟨_, _, rfl, countIndent_indentChars ind '-' [] (by decide)⟩

/-- The first line of a nonempty block map sits at its indentation. -/
theorem mapLines_cons_indent (k : List Char) (v : YamlVal) (tl : YamlMap)
    (ind : Nat) :
    ∃ l r, mapLines (.cons k v tl) ind = l :: r ∧ countIndent l = ind := by
  obtain ⟨hd, t, heq, hsp, -⟩ := renderStr_shape k
  cases hsv : scalarStr v with
  | some s =>
    rw [show mapLines (.cons k v tl) ind = mapEntryLines k v ind ++ mapLines tl ind
      from rfl]
    rw [mapEntryLines_scalar k hsv, List.cons_append, List.nil_append]
    refine ⟨_, _, rfl, ?_⟩
    rw [heq, List.append_assoc, List.cons_append]
    exact countIndent_indentChars ind hd _ hsp
  | none =>
    rw [show mapLines (.cons k v tl) ind = mapEntryLines k v ind ++ mapLines tl ind
      from rfl]
    rw [mapEntryLines_block k hsv, List.cons_append]
    refine ⟨_, _, rfl, ?_⟩
    rw [heq, List.append_assoc, List.cons_append]
    exact countIndent_indentChars ind hd _ hsp

/-- Sequence continuation lines are outdented relative to a child block. -/
theorem stopper_seq_child (tl : YamlSeq) (ind : Nat) (rest : List Line)
    (h : stopper ind rest) : stopper (ind + 2) (seqLines tl ind ++ rest) := by
  cases tl with
  | nil =>
    rw [show seqLines .nil ind = [] from rfl, List.nil_append]
    cases rest with
    | nil => exact trivial
    | cons l r =>
      have h' : countIndent l < ind := h
      show countIndent l < ind + 2
      omega
  | cons i tl' =>
    obtain ⟨l, r, heq, hci⟩ := seqLines_cons_indent i tl' ind
    rw [heq, List.cons_append]
    show countIndent l < ind + 2
    omega

/-- Map continuation lines are outdented relative to a child block. -/
theorem stopper_map_child (tl : YamlMap) (ind : Nat) (rest : List Line)
    (h : stopper ind rest) : stopper (ind + 2) (mapLines tl ind ++ rest) := by
  cases tl with
  | nil =>
    rw [show mapLines .nil ind = [] from rfl, List.nil_append]
    cases rest with
    | nil => exact trivial
    | cons l r =>
      have h' : countIndent l < ind := h
      show countIndent l < ind + 2
      omega
  | cons k v tl' =>
    obtain ⟨l, r, heq, hci⟩ := mapLines_cons_indent k v tl' ind
    rw [heq, List.cons_append]
    show countIndent l < ind + 2
    omega

/-- The parser fuel `3 * lines + 2` dominates the value size. -/
theorem size_bound : ∀ n : Nat,
    (∀ v ind, ySize v ≤ n → ySize v ≤ 3 * (yamlLines v ind).length + 2) ∧
    (∀ it ind, sSize it ≤ n → sSize it ≤ 3 * (seqLines it ind).length + 1) ∧
    (∀ en ind, mSize en ≤ n → mSize en ≤ 3 * (mapLines en ind).length + 1) := by
  intro n
  induction n with
  | zero =>
    refine ⟨fun v ind h => ?_, fun it ind h => ?_, fun en ind h => ?_⟩
    · exact absurd h (by have := ySize_pos v; omega)
    · exact absurd h (by have := sSize_pos it; omega)
    · exact absurd h (by have := mSize_pos en; omega)
  | succ n ih =>
    obtain ⟨ihV, ihS, ihM⟩ := ih
    refine ⟨fun v ind h => ?_, fun it ind h => ?_, fun en ind h => ?_⟩
    · cases v with
      | nullV => simp [yamlLines, ySize]
      | boolV b => cases b <;> simp [yamlLines, ySize]
      | strV t => simp [yamlLines, ySize]
      | seqV it =>
        cases it with
        | nil => simp [yamlLines, ySize, sSize]
        | cons a b =>
          rw [show yamlLines (.seqV (.cons a b)) ind = seqLines (.cons a b) ind
            from rfl]
          have hsz : sSize (.cons a b) ≤ n := by
            simp only [ySize] at h; omega
          have := ihS (.cons a b) ind hsz
          simp only [ySize]
          omega
      | mapV en =>
        cases en with
        | nil => simp [yamlLines, ySize, mSize]
        | cons k a b =>
          rw [show yamlLines (.mapV (.cons k a b)) ind = mapLines (.cons k a b) ind
            from rfl]
          have hsz : mSize (.cons k a b) ≤ n := by
            simp only [ySize] at h; omega
          have := ihM (.cons k a b) ind hsz
          simp only [ySize]
          omega
    · cases it with
      | nil => simp [seqLines, sSize]
      | cons v tl =>
        have hvpos := ySize_pos v
        have htpos := sSize_pos tl
        rw [show seqLines (.cons v tl) ind = seqItemLines v ind ++ seqLines tl ind
          from rfl]
        simp only [sSize] at h ⊢
        have h3 : sSize tl ≤ n := by omega
        have hb1 := ihS tl ind h3
        rw [List.length_append]
        cases hsv : scalarStr v with
        | some s =>
          have h2 := scalarStr_ySize_le hsv
          rw [seqItemLines_scalar hsv, List.length_singleton]
          omega
        | none =>
          have h4 : ySize v ≤ n := by omega
          have hb2 := ihV v (ind + 2) h4
          rw [seqItemLines_block hsv, List.length_cons]
          omega
    · cases en with
      | nil => simp [mapLines, mSize]
      | cons k v tl =>
        have hvpos := ySize_pos v
        have htpos := mSize_pos tl
        rw [show mapLines (.cons k v tl) ind = mapEntryLines k v ind ++ mapLines tl ind
          from rfl]
        simp only [mSize] at h ⊢
        have h3 : mSize tl ≤ n := by omega
        have hb1 := ihM tl ind h3
        rw [List.length_append]
        cases hsv : scalarStr v with
        | some s =>
          have h2 := scalarStr_ySize_le hsv
          rw [mapEntryLines_scalar k hsv, List.length_singleton]
          omega
        | none =>
          have h4 : ySize v ≤ n := by omega
          have hb2 := ihV v (ind + 2) h4
          rw [mapEntryLines_block k hsv, List.length_cons]
          omega

/-- The first line of a nonempty block sequence is recognized as a
sequence item line. -/
theorem seqLines_cons_head (a : YamlVal) (b : YamlSeq) (ind : Nat) :
    ∃ l r, seqLines (.cons a b) ind = l :: r ∧ countIndent l = ind ∧
      (dropIndent l = ['-'] ∨ (dropIndent l).take 2 = ['-', ' ']) := by
  cases hsa : scalarStr a with
  | some s =>
    rw [show seqLines (.cons a b) ind = seqItemLines a ind ++ seqLines b ind
      from rfl]
    rw [seqItemLines_scalar hsa, List.cons_append, List.nil_append]
    refine ⟨_, _, rfl, countIndent_indentChars ind '-' (' ' :: s) (by decide), ?_⟩
    rw [dropIndent_indentChars ind '-' (' ' :: s) (by decide)]
    right
    rfl
  | none =>
    rw [show seqLines (.cons a b) ind = seqItemLines a ind ++ seqLines b ind
      from rfl]
    rw [seqItemLines_block hsa, List.cons_append]
    refine ⟨_, _, rfl, countIndent_indentChars ind '-' [] (by decide), ?_⟩
    rw [dropIndent_indentChars ind '-' [] (by decide)]
    left
    rfl

/-- The first line of a nonempty block map is recognized as a key line and
not as a sequence item line. -/
theorem mapLines_cons_head (k : List Char) (x : YamlVal) (m : YamlMap)
    (ind : Nat) :
    ∃ l r, mapLines (.cons k x m) ind = l :: r ∧ countIndent l = ind ∧
      ¬(dropIndent l = ['-'] ∨ (dropIndent l).take 2 = ['-', ' ']) ∧
      (∃ p, parseKeyLine (dropIndent l) = some p) := by
  obtain ⟨hd, t, heq, hsp, hdash⟩ := renderStr_shape k
  have hnotseq : ∀ X : List Char,
      ¬(hd :: (t ++ X) = ['-'] ∨ (hd :: (t ++ X)).take 2 = ['-', ' ']) := by
    intro X h
    rcases h with h | h
    · rw [List.cons.injEq] at h
      exact hdash h.1
    · rw [show (hd :: (t ++ X)).take 2 = hd :: (t ++ X).take 1 from rfl,
        List.cons.injEq] at h
      exact hdash h.1
  cases hsx : scalarStr x with
  | some s =>
    rw [show mapLines (.cons k x m) ind = mapEntryLines k x ind ++ mapLines m ind
      from rfl]
    rw [mapEntryLines_scalar k hsx, List.cons_append, List.nil_append]
    rw [heq, List.append_assoc, List.cons_append]
    refine ⟨_, _, rfl, countIndent_indentChars ind hd _ hsp, ?_, ?_⟩
    · rw [dropIndent_indentChars ind hd _ hsp]
      exact hnotseq _
    · rw [dropIndent_indentChars ind hd _ hsp]
      rw [show (hd :: (t ++ ':' :: ' ' :: s) : List Char) =
        (hd :: t) ++ ':' :: ' ' :: s from rfl, ← heq]
      exact ⟨_, parseKeyLine_inlineKey k s⟩
  | none =>
    rw [show mapLines (.cons k x m) ind = mapEntryLines k x ind ++ mapLines m ind
      from rfl]
    rw [mapEntryLines_block k hsx, List.cons_append]
    rw [heq, List.append_assoc, List.cons_append]
    refine ⟨_, _, rfl, countIndent_indentChars ind hd _ hsp, ?_, ?_⟩
    · rw [dropIndent_indentChars ind hd _ hsp]
      exact hnotseq _
    · rw [dropIndent_indentChars ind hd _ hsp]
      rw [show (hd :: (t ++ [':']) : List Char) = (hd :: t) ++ [':'] from rfl,
        ← heq]
      exact ⟨_, parseKeyLine_blockKey k⟩

/-- The block parser inverts the serializer: with enough fuel, parsing the
lines of a value (followed by outdented lines) returns the value and the
following lines. -/
theorem parse_sound : ∀ fuel : Nat,
    (∀ v ind rest, ySize v ≤ fuel → stopper ind rest →
      parseNode fuel (yamlLines v ind ++ rest) ind = some (v, rest)) ∧
    (∀ it ind rest, sSize it ≤ fuel → stopper ind rest →
      parseSeqItems fuel (seqLines it ind ++ rest) ind = some (it, rest)) ∧
    (∀ en ind rest, mSize en ≤ fuel → stopper ind rest →
      parseMapEntries fuel (mapLines en ind ++ rest) ind = some (en, rest)) := by
  intro fuel
  induction fuel with
  | zero =>
    refine ⟨fun v ind rest hsz _ => ?_, fun it ind rest hsz _ => ?_,
      fun en ind rest hsz _ => ?_⟩
    · exact absurd hsz (by have := ySize_pos v; omega)
    · exact absurd hsz (by have := sSize_pos it; omega)
    · exact absurd hsz (by have := mSize_pos en; omega)
  | succ fuel ih =>
    obtain ⟨ihV, ihS, ihM⟩ := ih
    refine ⟨fun v ind rest hsz hst => ?_, fun it ind rest hsz hst => ?_,
      fun en ind rest hsz hst => ?_⟩
    · cases hsv : scalarStr v with
      | some s =>
        obtain ⟨hd, t, hseq, hdsp, hddash⟩ := scalarStr_shape hsv
        subst hseq
        have hns : ¬((hd :: t) = ['-'] ∨ (hd :: t).take 2 = ['-', ' ']) := by
          rintro (h | h)
          · rw [List.cons.injEq] at h
            exact hddash h.1
          · rw [show ((hd :: t).take 2 : List Char) = hd :: t.take 1 from rfl,
              List.cons.injEq] at h
            exact hddash h.1
        rw [yamlLines_scalar hsv, List.singleton_append, parseNode,
          if_pos (countIndent_indentChars ind hd t hdsp),
          dropIndent_indentChars ind hd t hdsp, if_neg hns,
          parseKeyLine_scalarStr_none hsv, parseScalar_scalarStr hsv]
      | none =>
        cases v with
        | nullV => simp [scalarStr] at hsv
        | boolV bb => cases bb <;> simp [scalarStr] at hsv
        | strV t => simp [scalarStr] at hsv
        | seqV it2 =>
          cases it2 with
          | nil => simp [scalarStr] at hsv
          | cons a b =>
            obtain ⟨l, r, hline, hci, hdash⟩ := seqLines_cons_head a b ind
            have hS := ihS (.cons a b) ind rest
              (by simp only [ySize] at hsz; omega) hst
            rw [hline, List.cons_append] at hS
            rw [show yamlLines (.seqV (.cons a b)) ind =
              seqLines (.cons a b) ind from rfl]
            rw [hline, List.cons_append, parseNode, if_pos hci, if_pos hdash,
              hS]
        | mapV en2 =>
          cases en2 with
          | nil => simp [scalarStr] at hsv
          | cons k x m =>
            obtain ⟨l, r, hline, hci, hnseq, p, hkl⟩ :=
              mapLines_cons_head k x m ind
            have hM := ihM (.cons k x m) ind rest
              (by simp only [ySize] at hsz; omega) hst
            rw [hline, List.cons_append] at hM
            rw [show yamlLines (.mapV (.cons k x m)) ind =
              mapLines (.cons k x m) ind from rfl]
            rw [hline, List.cons_append, parseNode, if_pos hci, if_neg hnseq,
              hkl, hM]
    · cases it with
      | nil =>
        rw [show seqLines .nil ind = ([] : List Line) from rfl,
          List.nil_append]
        cases rest with
        | nil => rfl
        | cons l r =>
          have h' : countIndent l < ind := hst
          rw [parseSeqItems, if_neg (by omega)]
      | cons a b =>
        have hbS : sSize b ≤ fuel := by
          simp only [sSize] at hsz
          have := ySize_pos a
          omega
        cases hsa : scalarStr a with
        | some s =>
          have hS := ihS b ind rest hbS hst
          rw [show seqLines (.cons a b) ind =
            seqItemLines a ind ++ seqLines b ind from rfl,
            seqItemLines_scalar hsa, List.singleton_append, List.cons_append]
          rw [parseSeqItems,
            if_pos (countIndent_indentChars ind '-' (' ' :: s) (by decide)),
            dropIndent_indentChars ind '-' (' ' :: s) (by decide),
            if_neg (by simp), if_pos (by rfl)]
          simp [parseScalar_scalarStr hsa, hS]
        | none =>
          have hya : ySize a ≤ fuel := by
            simp only [sSize] at hsz
            have := sSize_pos b
            omega
          have hV := ihV a (ind + 2) (seqLines b ind ++ rest) hya
            (stopper_seq_child b ind rest hst)
          have hS := ihS b ind rest hbS hst
          rw [show seqLines (.cons a b) ind =
            seqItemLines a ind ++ seqLines b ind from rfl,
            seqItemLines_block hsa, List.cons_append, List.cons_append,
            List.append_assoc]
          rw [parseSeqItems,
            if_pos (countIndent_indentChars ind '-' [] (by decide)),
            dropIndent_indentChars ind '-' [] (by decide),
            if_pos rfl, hV]
          simp [hS]
    · cases en with
      | nil =>
        rw [show mapLines .nil ind = ([] : List Line) from rfl,
          List.nil_append]
        cases rest with
        | nil => rfl
        | cons l r =>
          have h' : countIndent l < ind := hst
          rw [parseMapEntries, if_neg (by omega)]
      | cons k x m =>
        have hbM : mSize m ≤ fuel := by
          simp only [mSize] at hsz
          have := ySize_pos x
          omega
        obtain ⟨hd, t, heqK, hsp, -⟩ := renderStr_shape k
        cases hsx : scalarStr x with
        | some s =>
          have hM := ihM m ind rest hbM hst
          rw [show mapLines (.cons k x m) ind =
            mapEntryLines k x ind ++ mapLines m ind from rfl,
            mapEntryLines_scalar k hsx, List.singleton_append,
            List.cons_append]
          rw [heqK, List.append_assoc (indentChars ind) (hd :: t),
            List.cons_append]
          rw [parseMapEntries, if_pos (countIndent_indentChars ind hd _ hsp),
            dropIndent_indentChars ind hd _ hsp]
          rw [show (hd :: (t ++ ':' :: ' ' :: s) : List Char) =
            (hd :: t) ++ ':' :: ' ' :: s from rfl, ← heqK,
            parseKeyLine_inlineKey k s]
          simp [parseScalar_scalarStr hsx, hM]
        | none =>
          have hyx : ySize x ≤ fuel := by
            simp only [mSize] at hsz
            have := mSize_pos m
            omega
          have hV := ihV x (ind + 2) (mapLines m ind ++ rest) hyx
            (stopper_map_child m ind rest hst)
          have hM := ihM m ind rest hbM hst
          rw [show mapLines (.cons k x m) ind =
            mapEntryLines k x ind ++ mapLines m ind from rfl,
            mapEntryLines_block k hsx, List.cons_append, List.cons_append,
            List.append_assoc (yamlLines x (ind + 2)) (mapLines m ind) rest]
          rw [heqK, List.append_assoc (indentChars ind) (hd :: t),
            List.cons_append]
          rw [parseMapEntries, if_pos (countIndent_indentChars ind hd _ hsp),
            dropIndent_indentChars ind hd _ hsp]
          rw [show (hd :: (t ++ [':']) : List Char) =
            (hd :: t) ++ [':'] from rfl, ← heqK, parseKeyLine_blockKey k]
          rw [hV]
          simp [hM]

/-- C6: every text the editor's `updateText` handling writes into
`flat.yml` is valid YAML that preserves the state it serializes: for every
state value, `serializeWorkflow data` parses back, and the parse returns
exactly `data` (round trip through the modelled stringify/parse pair). -/
theorem C6_serialize_roundtrip (data : YamlVal) :
    parseYaml (serializeWorkflow data) = some data := by
  have hb := (size_bound (ySize data)).1 data 0 le_rfl
  have hs := (parse_sound (3 * (yamlLines data 0).length + 2)).1 data 0 []
    hb True.intro
  rw [List.append_nil] at hs
  rw [show serializeWorkflow data = yamlLines data 0 from rfl]
  unfold parseYaml
  rw [hs]
